import Mathlib

/-!
Shallow embedding of `src/morpher.py` (the morph pipeline: contour tracing,
resampling, interpolation, rasterization bookkeeping and flood fill), with
theorems settling the specification claims.

Conventions used throughout:
* Python floats are modelled by `ℚ`; every float expression appearing in the
  source is an exact arithmetic combination of integer-valued inputs, so the
  rational model reproduces the relevant values exactly (`lerp` at the
  endpoints `0` and `1`, `linspace` samples, the decimation cursor).
* Python `int(x)` (truncation toward zero) is `py_int`.
* RGBA pixels carry integer channels; "foreground" means alpha ≠ 0, exactly
  as the source tests `pixel[3] != 0`.
-/

namespace Morpher

/-- An RGBA pixel, as the 4-tuples the source manipulates. -/
structure Pixel where
  r : ℤ
  g : ℤ
  b : ℤ
  a : ℤ
deriving DecidableEq, Repr

/-- Source constant `BLANK = (0, 0, 0, 0)` (line 10). -/
def blank : Pixel := ⟨0, 0, 0, 0⟩

/-- Opaque white `(255, 255, 255, 255)`, the canvas background colour the
flood fill tests against (line 135). -/
def whitePx : Pixel := ⟨255, 255, 255, 255⟩

/-- Linear interpolation `lerp(a, b, t) = (1 - t) * a + t * b` (lines 143-145). -/
def lerp (a b t : ℚ) : ℚ := (1 - t) * a + t * b

/-- Python `int()` applied to a float: truncation toward zero. -/
def py_int (q : ℚ) : ℤ := if 0 ≤ q then ⌊q⌋ else ⌈q⌉

/-- A contour point, `(row, column)` as produced by the tracer; interpolated
points are `(x, y) = (column, row)` pairs.  Both are plain integer pairs. -/
abbrev Pt := ℤ × ℤ

/-- The body of the interpolation loop (lines 277-279): zip the two contours
and emit `(int(lerp(j0, j1, t)), int(lerp(i0, i1, t)))` — note the
column/row swap into `(x, y)` order. -/
def interpolatePoints (a b : List Pt) (t : ℚ) : List Pt :=
  (a.zip b).map fun pp =>
    (py_int (lerp pp.1.2 pp.2.2 t), py_int (lerp pp.1.1 pp.2.1 t))

/-- The interpolated fill colour (lines 283-286): `int(lerp ...)` on the
R, G, B channels, alpha fixed at `255`. -/
def interpColor (c0 c1 : Pixel) (t : ℚ) : Pixel :=
  ⟨py_int (lerp c0.r c1.r t), py_int (lerp c0.g c1.g t),
   py_int (lerp c0.b c1.b t), 255⟩

/-- The polyline-drawing loop of `main` (lines 288-290) as the list of
segments it passes to `draw.line`, in order:
`for i in range(len(pts) - 1): draw.line(pts[i - 1] + pts[i])` followed by
`draw.line(pts[-1] + pts[0])`.  Python's `pts[i - 1]` at `i = 0` is the
*last* point (negative indexing), which is what `if i = 0 then getLastD`
renders. -/
def drawnSegments (pts : List Pt) : List (Pt × Pt) :=
  ((List.range (pts.length - 1)).map fun i =>
    ((if i = 0 then pts.getLastD (0, 0) else pts.getD (i - 1) (0, 0)),
      pts.getD i (0, 0)))
  ++ [(pts.getLastD (0, 0), pts.headD (0, 0))]

/-- Truncation agrees with the identity on integers. -/
theorem py_int_intCast (z : ℤ) : py_int (z : ℚ) = z := by
  unfold py_int
  split <;> simp

theorem lerp_zero (a b : ℚ) : lerp a b 0 = a := by unfold lerp; ring

theorem lerp_one (a b : ℚ) : lerp a b 1 = b := by unfold lerp; ring

/-- C1: the drawing loop never draws the segment joining the last two
interpolated points.  On the 3-point list `[(0,0), (5,0), (5,5)]` the
segments actually handed to `draw.line` are `((5,5),(0,0))` (loop index 0,
via Python's `pts[-1]`), `((0,0),(5,0))` (loop index 1) and the closing
`((5,5),(0,0))` again; the consecutive segment `((5,0),(5,5))` required by
the claim is never drawn. -/
theorem drawnSegments_missing_segment :
    drawnSegments [((0 : ℤ), (0 : ℤ)), (5, 0), (5, 5)] =
      [((5, 5), (0, 0)), ((0, 0), (5, 0)), ((5, 5), (0, 0))] ∧
    (((5 : ℤ), (0 : ℤ)), ((5 : ℤ), (5 : ℤ))) ∉
      drawnSegments [((0 : ℤ), (0 : ℤ)), (5, 0), (5, 5)] := by
  constructor
  · rfl
  · decide

/-- C2 counterexample: the source converts with `int()` (truncation), not
round-to-nearest.  With points `a = [(0,0)]`, `b = [(0,7)]` and `t = 1/4`,
`lerp(0, 7, 1/4) = 7/4`; the code emits x-coordinate `int(7/4) = 1`, while
the claimed round-to-nearest value is `2`. -/
theorem interpolate_truncates_not_rounds :
    interpolatePoints [((0 : ℤ), (0 : ℤ))] [((0 : ℤ), (7 : ℤ))] (1/4) =
      [((1 : ℤ), (0 : ℤ))] ∧
    lerp 0 7 (1/4) = 7/4 ∧
    round ((7 : ℚ)/4) = 2 ∧
    (1 : ℤ) ≠ 2 := by
  refine ⟨?_, by norm_num [lerp], ?_, by decide⟩
  · simp only [interpolatePoints, py_int, lerp, List.zip_cons_cons, List.zip_nil_right,
      List.map_cons, List.map_nil]
    norm_num
  · rw [round_eq]
    norm_num

/-- C2 (amended): at every index `i` below both lengths, the emitted point is
`(int(lerp(col_a, col_b, t)), int(lerp(row_a, row_b, t)))` with `int`
truncating toward zero, the output has one point per corresponding index
pair, and the colour is the componentwise truncated lerp with alpha 255. -/
theorem interpolate_char (a b : List Pt) (t : ℚ) (c0 c1 : Pixel) (i : ℕ)
    (h : i < min a.length b.length) :
    (interpolatePoints a b t)[i]? =
      some (py_int (lerp (a.getD i (0, 0)).2 (b.getD i (0, 0)).2 t),
            py_int (lerp (a.getD i (0, 0)).1 (b.getD i (0, 0)).1 t)) ∧
    (interpolatePoints a b t).length = min a.length b.length ∧
    interpColor c0 c1 t =
      ⟨py_int (lerp c0.r c1.r t), py_int (lerp c0.g c1.g t),
       py_int (lerp c0.b c1.b t), 255⟩ := by
  have ha : i < a.length := lt_of_lt_of_le h (min_le_left _ _)
  have hb : i < b.length := lt_of_lt_of_le h (min_le_right _ _)
  refine ⟨?_, ?_, rfl⟩
  · have hz : i < (a.zip b).length := by
      rw [List.length_zip]; exact h
    unfold interpolatePoints
    rw [List.getElem?_map]
    have : (a.zip b)[i]? = some (a[i], b[i]) := by
      rw [List.getElem?_eq_getElem hz, List.getElem_zip]
    rw [this]
    simp [List.getD_eq_getElem?_getD, List.getElem?_eq_getElem ha,
      List.getElem?_eq_getElem hb]
  · unfold interpolatePoints
    rw [List.length_map, List.length_zip]

/-- C2 (amended) witness at a concrete input. -/
theorem interpolate_char_witness :
    (0 < min ([((0 : ℤ), (0 : ℤ)), (2, 3)]).length ([((0 : ℤ), (4 : ℤ))]).length) ∧
    ((interpolatePoints [((0 : ℤ), (0 : ℤ)), (2, 3)] [((0 : ℤ), (4 : ℤ))] (1/2))[0]? =
      some (py_int (lerp (([((0 : ℤ), (0 : ℤ)), (2, 3)]).getD 0 (0, 0)).2
              (([((0 : ℤ), (4 : ℤ))]).getD 0 (0, 0)).2 (1/2)),
            py_int (lerp (([((0 : ℤ), (0 : ℤ)), (2, 3)]).getD 0 (0, 0)).1
              (([((0 : ℤ), (4 : ℤ))]).getD 0 (0, 0)).1 (1/2))) ∧
    (interpolatePoints [((0 : ℤ), (0 : ℤ)), (2, 3)] [((0 : ℤ), (4 : ℤ))] (1/2)).length =
      min ([((0 : ℤ), (0 : ℤ)), (2, 3)]).length ([((0 : ℤ), (4 : ℤ))]).length ∧
    interpColor blank whitePx (1/2) =
      ⟨py_int (lerp blank.r whitePx.r (1/2)), py_int (lerp blank.g whitePx.g (1/2)),
       py_int (lerp blank.b whitePx.b (1/2)), 255⟩) :=
  ⟨by decide, interpolate_char _ _ (1/2) blank whitePx 0 (by decide)⟩

/-- C6: interpolation at `t = 0` reproduces the first contour's points in
`(x, y)` order and the first colour with alpha 255; at `t = 1` it reproduces
the second contour's points and the second colour. -/
theorem interpolate_endpoints (a b : List Pt) (c0 c1 : Pixel)
    (h : a.length = b.length) :
    interpolatePoints a b 0 = a.map (fun p => (p.2, p.1)) ∧
    interpolatePoints a b 1 = b.map (fun p => (p.2, p.1)) ∧
    interpColor c0 c1 0 = ⟨c0.r, c0.g, c0.b, 255⟩ ∧
    interpColor c0 c1 1 = ⟨c1.r, c1.g, c1.b, 255⟩ := by
  refine ⟨?_, ?_, ?_, ?_⟩
  · unfold interpolatePoints
    have : ∀ pp : Pt × Pt,
        (py_int (lerp pp.1.2 pp.2.2 0), py_int (lerp pp.1.1 pp.2.1 0)) =
          (pp.1.2, pp.1.1) := by
      intro pp; rw [lerp_zero, lerp_zero, py_int_intCast, py_int_intCast]
    calc (a.zip b).map (fun pp =>
            (py_int (lerp pp.1.2 pp.2.2 0), py_int (lerp pp.1.1 pp.2.1 0)))
        = (a.zip b).map (fun pp => ((pp.1.2, pp.1.1) : Pt)) := by
          exact List.map_congr_left fun pp _ => this pp
      _ = ((a.zip b).map Prod.fst).map (fun p => (p.2, p.1)) := by
          rw [List.map_map]; rfl
      _ = a.map (fun p => (p.2, p.1)) := by
          rw [List.map_fst_zip a b (le_of_eq h)]
  · unfold interpolatePoints
    have : ∀ pp : Pt × Pt,
        (py_int (lerp pp.1.2 pp.2.2 1), py_int (lerp pp.1.1 pp.2.1 1)) =
          (pp.2.2, pp.2.1) := by
      intro pp; rw [lerp_one, lerp_one, py_int_intCast, py_int_intCast]
    calc (a.zip b).map (fun pp =>
            (py_int (lerp pp.1.2 pp.2.2 1), py_int (lerp pp.1.1 pp.2.1 1)))
        = (a.zip b).map (fun pp => ((pp.2.2, pp.2.1) : Pt)) := by
          exact List.map_congr_left fun pp _ => this pp
      _ = ((a.zip b).map Prod.snd).map (fun p => (p.2, p.1)) := by
          rw [List.map_map]; rfl
      _ = b.map (fun p => (p.2, p.1)) := by
          rw [List.map_snd_zip a b (le_of_eq h.symm)]
  · unfold interpColor
    rw [lerp_zero, lerp_zero, lerp_zero,
      py_int_intCast, py_int_intCast, py_int_intCast]
  · unfold interpColor
    rw [lerp_one, lerp_one, lerp_one,
      py_int_intCast, py_int_intCast, py_int_intCast]

/-- C6 witness at a concrete resampled pair. -/
theorem interpolate_endpoints_witness :
    interpolatePoints [((1 : ℤ), (2 : ℤ)), (3, 4)] [((5 : ℤ), (6 : ℤ)), (7, 8)] 0 =
      ([((1 : ℤ), (2 : ℤ)), (3, 4)]).map (fun p => (p.2, p.1)) ∧
    interpolatePoints [((1 : ℤ), (2 : ℤ)), (3, 4)] [((5 : ℤ), (6 : ℤ)), (7, 8)] 1 =
      ([((5 : ℤ), (6 : ℤ)), (7, 8)]).map (fun p => (p.2, p.1)) ∧
    interpColor ⟨10, 20, 30, 255⟩ ⟨40, 50, 60, 255⟩ 0 = ⟨10, 20, 30, 255⟩ ∧
    interpColor ⟨10, 20, 30, 255⟩ ⟨40, 50, 60, 255⟩ 1 = ⟨40, 50, 60, 255⟩ :=
  interpolate_endpoints _ _ _ _ (by decide)

/-!
## Contour resampling (lines 262-271)

```
a = max(original_line, final_line, key=len)
b = min(original_line, final_line, key=len)
while len(a) != len(b):
    inc = len(a) / (len(a) - len(b))
    i = 0.0
    while i < len(a):
        del a[int(i)]
        if len(a) == len(b):
            break
        i += inc
```

The cursor `i` starts at `0.0` and only ever grows by `inc ≥ 0`, so it stays
nonnegative; the definitions carry those two facts as hypotheses to make the
well-foundedness of the loops manifest.  `del a[int(i)]` is
`eraseIdx ⌊i⌋.toNat`: for the nonnegative cursor values that occur,
`int(i) = ⌊i⌋`. -/

/-- The index actually deleted: `⌊i⌋.toNat` is strictly inside the list
whenever the loop guard `i < len(a)` holds for a nonnegative cursor. -/
theorem floor_toNat_lt_length (a : List Pt) (i : ℚ) (hi : 0 ≤ i)
    (h : i < (a.length : ℚ)) : (⌊i⌋).toNat < a.length := by
  have h1 : (⌊i⌋ : ℚ) ≤ i := Int.floor_le i
  have h2 : ⌊i⌋ < (a.length : ℤ) := by exact_mod_cast lt_of_le_of_lt h1 h
  have h3 : (0 : ℤ) ≤ ⌊i⌋ := Int.floor_nonneg.mpr hi
  omega

/-- The inner `while i < len(a)` deletion pass. -/
def innerDel (blen : ℕ) (inc : ℚ) (hinc : 0 ≤ inc) (a : List Pt) (i : ℚ)
    (hi : 0 ≤ i) : List Pt :=
  if h : i < (a.length : ℚ) then
    if (a.eraseIdx (⌊i⌋).toNat).length = blen then a.eraseIdx (⌊i⌋).toNat
    else innerDel blen inc hinc (a.eraseIdx (⌊i⌋).toNat) (i + inc)
      (add_nonneg hi hinc)
  else a
termination_by a.length
decreasing_by
  have hfl : (⌊i⌋).toNat < a.length := floor_toNat_lt_length a i hi h
  rw [List.length_eraseIdx]
  simp only [hfl, if_pos]
  omega

/-- The deleted list is a sublist of the input. -/
theorem innerDel_sublist (blen : ℕ) (inc : ℚ) (hinc : 0 ≤ inc) :
    ∀ (n : ℕ) (a : List Pt), a.length ≤ n → ∀ (i : ℚ) (hi : 0 ≤ i),
      (innerDel blen inc hinc a i hi).Sublist a := by
  intro n
  induction n with
  | zero =>
    intro a ha i hi
    have : a = [] := List.length_eq_zero.mp (by omega)
    subst this
    rw [innerDel, dif_neg (by
      simp only [List.length_nil, Nat.cast_zero]
      exact not_lt.mpr hi)]
  | succ n IH =>
    intro a ha i hi
    rw [innerDel]
    split
    · rename_i hlt
      have hfl : (⌊i⌋).toNat < a.length := floor_toNat_lt_length a i hi hlt
      have hsub : (a.eraseIdx (⌊i⌋).toNat).Sublist a := List.eraseIdx_sublist a _
      have hlen : (a.eraseIdx (⌊i⌋).toNat).length = a.length - 1 := by
        rw [List.length_eraseIdx]
        simp only [hfl, if_pos]
      split
      · exact hsub
      · exact (IH _ (by omega) _ _).trans hsub
    · exact List.Sublist.refl a

/-- The inner pass never deletes past the target length. -/
theorem innerDel_blen_le (blen : ℕ) (inc : ℚ) (hinc : 0 ≤ inc) :
    ∀ (n : ℕ) (a : List Pt), a.length ≤ n → ∀ (i : ℚ) (hi : 0 ≤ i),
      blen < a.length → blen ≤ (innerDel blen inc hinc a i hi).length := by
  intro n
  induction n with
  | zero =>
    intro a ha i hi hb
    omega
  | succ n IH =>
    intro a ha i hi hb
    rw [innerDel]
    split
    · rename_i hlt
      have hfl : (⌊i⌋).toNat < a.length := floor_toNat_lt_length a i hi hlt
      have hlen : (a.eraseIdx (⌊i⌋).toNat).length = a.length - 1 := by
        rw [List.length_eraseIdx]
        simp only [hfl, if_pos]
      split
      · rename_i heq; omega
      · rename_i hne
        exact IH _ (by omega) _ _ (by omega)
    · exact le_of_lt hb

/-- When the target is strictly shorter, the inner pass at cursor `0`
strictly shrinks the list (the first deletion always happens). -/
theorem innerDel_length_lt (blen : ℕ) (inc : ℚ) (hinc : 0 ≤ inc)
    (a : List Pt) (hb : blen < a.length) :
    (innerDel blen inc hinc a 0 le_rfl).length < a.length := by
  rw [innerDel]
  have hlt : (0 : ℚ) < (a.length : ℚ) := by
    have : 0 < a.length := by omega
    exact_mod_cast this
  rw [dif_pos hlt]
  have hlen : (a.eraseIdx (⌊(0 : ℚ)⌋).toNat).length = a.length - 1 := by
    rw [List.length_eraseIdx]
    have : (⌊(0 : ℚ)⌋).toNat < a.length := floor_toNat_lt_length a 0 le_rfl hlt
    simp only [this, if_pos]
  split
  · omega
  · calc (innerDel blen inc hinc (a.eraseIdx (⌊(0 : ℚ)⌋).toNat) (0 + inc) _).length
        ≤ (a.eraseIdx (⌊(0 : ℚ)⌋).toNat).length :=
          List.Sublist.length_le (innerDel_sublist _ _ _ _ _ le_rfl _ _)
      _ < a.length := by omega

/-- The outer `while len(a) != len(b)` loop: repeatedly recompute `inc` and
run a deletion pass, until the lengths agree.  `blen` is the (fixed) length
of the shorter contour. -/
def outerDel (blen : ℕ) : (a : List Pt) → blen ≤ a.length → List Pt :=
  fun a hb =>
  if h : a.length = blen then a
  else
    have hlt : blen < a.length := lt_of_le_of_ne hb (fun hc => h hc.symm)
    have hden : (0 : ℚ) < (a.length : ℚ) - (blen : ℚ) := by
      rw [sub_pos]; exact_mod_cast hlt
    have hinc : 0 ≤ (a.length : ℚ) / ((a.length : ℚ) - (blen : ℚ)) :=
      div_nonneg (by positivity) (le_of_lt hden)
    outerDel blen (innerDel blen _ hinc a 0 le_rfl)
      (innerDel_blen_le blen _ hinc a.length a le_rfl 0 le_rfl hlt)
termination_by a _ => a.length
decreasing_by
  exact innerDel_length_lt blen _ hinc a hlt

theorem outerDel_length (blen : ℕ) :
    ∀ (n : ℕ) (a : List Pt), a.length ≤ n → ∀ (hb : blen ≤ a.length),
      (outerDel blen a hb).length = blen := by
  intro n
  induction n with
  | zero =>
    intro a ha hb
    rw [outerDel]
    have h0 : a.length = 0 := by omega
    rw [dif_pos (by omega : a.length = blen)]
    omega
  | succ n IH =>
    intro a ha hb
    rw [outerDel]
    split
    · assumption
    · rename_i h
      have hlt : blen < a.length := lt_of_le_of_ne hb (fun hc => h hc.symm)
      exact IH _ (Nat.le_of_lt_succ
        (lt_of_lt_of_le (innerDel_length_lt _ _ _ a hlt) ha)) _

theorem outerDel_sublist (blen : ℕ) :
    ∀ (n : ℕ) (a : List Pt), a.length ≤ n → ∀ (hb : blen ≤ a.length),
      (outerDel blen a hb).Sublist a := by
  intro n
  induction n with
  | zero =>
    intro a ha hb
    rw [outerDel]
    rw [dif_pos (by omega : a.length = blen)]
  | succ n IH =>
    intro a ha hb
    rw [outerDel]
    split
    · exact List.Sublist.refl a
    · rename_i h
      have hlt : blen < a.length := lt_of_le_of_ne hb (fun hc => h hc.symm)
      exact (IH _ (Nat.le_of_lt_succ
        (lt_of_lt_of_le (innerDel_length_lt _ _ _ a hlt) ha)) _).trans
        (innerDel_sublist _ _ _ _ a le_rfl _ _)

/-- Resampling (lines 262-271): Python's `max(x, y, key=len)` returns `x`
when the lengths tie, and `min(x, y, key=len)` then also returns `x` — the
loop then compares a list with itself and never runs, so equal-length inputs
pass through unchanged.  Otherwise the longer list is decimated in place and
the shorter returned as is. -/
def resample (orig fin : List Pt) : List Pt × List Pt :=
  if orig.length = fin.length then (orig, fin)
  else if h2 : fin.length < orig.length then
    (outerDel fin.length orig (le_of_lt h2), fin)
  else
    (orig, outerDel orig.length fin (by omega))

/-- C5: resampling yields two contours of length `min m n`; each output is a
sublist (order-preserving selection, no new points) of its input; the shorter
input passes through unchanged, and equal-length inputs are both unchanged. -/
theorem resample_spec (orig fin : List Pt) :
    (resample orig fin).1.length = min orig.length fin.length ∧
    (resample orig fin).2.length = min orig.length fin.length ∧
    (resample orig fin).1.Sublist orig ∧
    (resample orig fin).2.Sublist fin ∧
    (orig.length ≤ fin.length → (resample orig fin).1 = orig) ∧
    (fin.length ≤ orig.length → (resample orig fin).2 = fin) ∧
    (orig.length = fin.length → resample orig fin = (orig, fin)) := by
  unfold resample
  split
  · rename_i heq
    refine ⟨by simp [heq], by simp [heq], List.Sublist.refl _,
      List.Sublist.refl _, fun _ => rfl, fun _ => rfl, fun _ => rfl⟩
  · rename_i hne
    split
    · rename_i h2
      refine ⟨?_, ?_, ?_, List.Sublist.refl _,
        fun hle => absurd hle (by omega), fun _ => rfl,
        fun heq => absurd heq hne⟩
      · show (outerDel fin.length orig _).length = min orig.length fin.length
        rw [outerDel_length fin.length orig.length orig le_rfl]
        omega
      · show fin.length = min orig.length fin.length
        omega
      · show (outerDel fin.length orig _).Sublist orig
        exact outerDel_sublist _ _ _ le_rfl _
    · rename_i h2
      have hlt : orig.length < fin.length := by omega
      refine ⟨?_, ?_, List.Sublist.refl _, ?_,
        fun _ => rfl, fun hle => absurd hle (by omega),
        fun heq => absurd heq hne⟩
      · show orig.length = min orig.length fin.length
        omega
      · show (outerDel orig.length fin _).length = min orig.length fin.length
        rw [outerDel_length orig.length fin.length fin le_rfl]
        omega
      · show (outerDel orig.length fin _).Sublist fin
        exact outerDel_sublist _ _ _ le_rfl _

/-- C5 witness: a 4-point contour decimated against a 2-point contour. -/
theorem resample_spec_witness :
    (resample [((0 : ℤ), (0 : ℤ)), (0, 1), (1, 1), (1, 0)] [((5 : ℤ), (5 : ℤ)), (6, 6)]).1.length =
      min ([((0 : ℤ), (0 : ℤ)), (0, 1), (1, 1), (1, 0)]).length ([((5 : ℤ), (5 : ℤ)), (6, 6)]).length ∧
    (resample [((0 : ℤ), (0 : ℤ)), (0, 1), (1, 1), (1, 0)] [((5 : ℤ), (5 : ℤ)), (6, 6)]).2.length =
      min ([((0 : ℤ), (0 : ℤ)), (0, 1), (1, 1), (1, 0)]).length ([((5 : ℤ), (5 : ℤ)), (6, 6)]).length ∧
    (resample [((0 : ℤ), (0 : ℤ)), (0, 1), (1, 1), (1, 0)] [((5 : ℤ), (5 : ℤ)), (6, 6)]).1.Sublist
      [((0 : ℤ), (0 : ℤ)), (0, 1), (1, 1), (1, 0)] ∧
    (resample [((0 : ℤ), (0 : ℤ)), (0, 1), (1, 1), (1, 0)] [((5 : ℤ), (5 : ℤ)), (6, 6)]).2.Sublist
      [((5 : ℤ), (5 : ℤ)), (6, 6)] ∧
    (([((0 : ℤ), (0 : ℤ)), (0, 1), (1, 1), (1, 0)]).length ≤ ([((5 : ℤ), (5 : ℤ)), (6, 6)]).length →
      (resample [((0 : ℤ), (0 : ℤ)), (0, 1), (1, 1), (1, 0)] [((5 : ℤ), (5 : ℤ)), (6, 6)]).1 =
        [((0 : ℤ), (0 : ℤ)), (0, 1), (1, 1), (1, 0)]) ∧
    (([((5 : ℤ), (5 : ℤ)), (6, 6)]).length ≤ ([((0 : ℤ), (0 : ℤ)), (0, 1), (1, 1), (1, 0)]).length →
      (resample [((0 : ℤ), (0 : ℤ)), (0, 1), (1, 1), (1, 0)] [((5 : ℤ), (5 : ℤ)), (6, 6)]).2 =
        [((5 : ℤ), (5 : ℤ)), (6, 6)]) ∧
    (([((0 : ℤ), (0 : ℤ)), (0, 1), (1, 1), (1, 0)]).length = ([((5 : ℤ), (5 : ℤ)), (6, 6)]).length →
      resample [((0 : ℤ), (0 : ℤ)), (0, 1), (1, 1), (1, 0)] [((5 : ℤ), (5 : ℤ)), (6, 6)] =
        ([((0 : ℤ), (0 : ℤ)), (0, 1), (1, 1), (1, 0)], [((5 : ℤ), (5 : ℤ)), (6, 6)])) :=
  resample_spec _ _

/-!
## Flood fill (lines 128-140)

```
def flood_fill(img, xy, color):
    stack = []
    stack.append(xy)
    while stack:
        n = stack.pop()
        x, y = n
        if 0 <= x < img.width and 0 <= y < img.height and img.getpixel(n) == (255, 255, 255, 255):
            img.putpixel(n, color)
            stack.append((x - 1, y))
            stack.append((x + 1, y))
            stack.append((x, y - 1))
            stack.append((x, y + 1))
```

A PIL image is a rectangular pixel grid; `Img` stores it row-major in a flat
list (`data[y * width + x]`), with `wf` recording that the payload has the
advertised size.  Python's list used as a stack (pop from the end, append at
the end) is modelled head-first: popping takes the head, and the four pushes
are prepended in reverse source order so the pop order is exactly Python's.
`getpixel`/`putpixel` are partial (PIL raises on out-of-range access); the
`fault` outcome records such an access, and `fuelOut` records running out of
fuel, the device standing in for the unbounded `while stack:` loop. -/

/-- A PIL RGBA image. -/
structure Img where
  width : ℕ
  height : ℕ
  data : List Pixel
deriving DecidableEq, Repr

/-- The image payload has exactly `width * height` pixels, as a real PIL
image does. -/
def Img.wf (img : Img) : Prop := img.data.length = img.width * img.height

/-- Model of `img.getpixel(n)`: `none` is PIL's error on out-of-range access. -/
def getpixel (img : Img) (p : ℤ × ℤ) : Option Pixel :=
  if 0 ≤ p.1 ∧ p.1 < (img.width : ℤ) ∧ 0 ≤ p.2 ∧ p.2 < (img.height : ℤ) then
    img.data.get? (p.2.toNat * img.width + p.1.toNat)
  else none

/-- Model of `img.putpixel(n, color)`, partial in the same way. -/
def putpixel (img : Img) (p : ℤ × ℤ) (c : Pixel) : Option Img :=
  if 0 ≤ p.1 ∧ p.1 < (img.width : ℤ) ∧ 0 ≤ p.2 ∧ p.2 < (img.height : ℤ) then
    some ⟨img.width, img.height, img.data.set (p.2.toNat * img.width + p.1.toNat) c⟩
  else none

/-- Outcome of running the flood-fill loop on bounded fuel. -/
inductive FloodRes where
  | ok (img : Img)
  | fuelOut
  | fault
deriving DecidableEq, Repr

/-- The `while stack:` loop of `flood_fill`.  One fuel unit is one loop
iteration (one `stack.pop()`). -/
def floodLoop (color : Pixel) : ℕ → Img → List (ℤ × ℤ) → FloodRes
  | 0, _, _ => .fuelOut
  | _ + 1, img, [] => .ok img
  | fuel + 1, img, n :: rest =>
    if 0 ≤ n.1 ∧ n.1 < (img.width : ℤ) ∧ 0 ≤ n.2 ∧ n.2 < (img.height : ℤ) then
      match getpixel img n with
      | none => .fault
      | some px =>
        if px = whitePx then
          match putpixel img n color with
          | none => .fault
          | some img1 =>
            floodLoop color fuel img1
              ((n.1, n.2 + 1) :: (n.1, n.2 - 1) :: (n.1 + 1, n.2) ::
                (n.1 - 1, n.2) :: rest)
        else floodLoop color fuel img rest
    else floodLoop color fuel img rest

/-- The entry point `flood_fill`: start from the single seed `xy`. -/
def flood_fill (color : Pixel) (fuel : ℕ) (img : Img) (xy : ℤ × ℤ) : FloodRes :=
  floodLoop color fuel img [xy]

/-- Number of opaque-white pixels, the termination measure's main part. -/
def countWhite (img : Img) : ℕ :=
  img.data.countP (fun p => decide (p = whitePx))

theorem putpixel_wf (img : Img) (p : ℤ × ℤ) (c : Pixel) (img1 : Img)
    (hwf : img.wf) (h : putpixel img p c = some img1) : img1.wf := by
  unfold putpixel at h
  split at h
  · cases h
    unfold Img.wf at hwf ⊢
    simpa using hwf
  · cases h

theorem putpixel_dims (img : Img) (p : ℤ × ℤ) (c : Pixel) (img1 : Img)
    (h : putpixel img p c = some img1) :
    img1.width = img.width ∧ img1.height = img.height := by
  unfold putpixel at h
  split at h
  · cases h; exact ⟨rfl, rfl⟩
  · cases h

/-- Overwriting a white pixel with a non-white colour strictly decreases the
white count. -/
theorem countP_set_decrease (l : List Pixel) (k : ℕ) (c : Pixel)
    (hk : l.get? k = some whitePx) (hc : c ≠ whitePx) :
    (l.set k c).countP (fun p => decide (p = whitePx)) + 1 =
      l.countP (fun p => decide (p = whitePx)) := by
  induction l generalizing k with
  | nil => simp at hk
  | cons hd tl IH =>
    cases k with
    | zero =>
      simp only [List.get?] at hk
      cases hk
      simp [List.countP_cons, hc]
    | succ k =>
      simp only [List.get?] at hk
      have := IH k hk
      simp only [List.set, List.countP_cons]
      omega

theorem getpixel_some_white (img : Img) (n : ℤ × ℤ)
    (h : getpixel img n = some whitePx) :
    img.data.get? (n.2.toNat * img.width + n.1.toNat) = some whitePx := by
  unfold getpixel at h
  split at h
  · exact h
  · cases h

/-- C10 part 1 (as a lemma over an arbitrary stack): on a well-formed image
the guard `0 <= x < width and 0 <= y < height` makes every `getpixel` /
`putpixel` call in-range, so the loop never faults. -/
theorem floodLoop_no_fault (color : Pixel) :
    ∀ (fuel : ℕ) (img : Img) (stack : List (ℤ × ℤ)), img.wf →
      floodLoop color fuel img stack ≠ .fault := by
  intro fuel
  induction fuel with
  | zero => intro img stack hwf; simp [floodLoop]
  | succ fuel IH =>
    intro img stack hwf
    match stack with
    | [] => simp [floodLoop]
    | n :: rest =>
      rw [floodLoop]
      split
      · rename_i hin
        have hget : ∃ px, getpixel img n = some px := by
          unfold getpixel
          rw [if_pos hin]
          have hidx : n.2.toNat * img.width + n.1.toNat < img.data.length := by
            unfold Img.wf at hwf
            obtain ⟨hx0, hxw, hy0, hyh⟩ := hin
            have hx : n.1.toNat < img.width := by omega
            have hy : n.2.toNat < img.height := by omega
            calc n.2.toNat * img.width + n.1.toNat
                < n.2.toNat * img.width + img.width := by omega
              _ = (n.2.toNat + 1) * img.width := by ring
              _ ≤ img.height * img.width := Nat.mul_le_mul_right _ (by omega)
              _ = img.width * img.height := Nat.mul_comm _ _
              _ = img.data.length := hwf.symm
          exact ⟨_, List.get?_eq_get hidx⟩
        obtain ⟨px, hpx⟩ := hget
        rw [hpx]
        split
        · rename_i habs
          exact Option.noConfusion habs
        · rename_i px2 hpx2
          injection hpx2 with hpx2
          subst hpx2
          split
          · rename_i hwhite
            have hput : putpixel img n color =
                some ⟨img.width, img.height,
                  img.data.set (n.2.toNat * img.width + n.1.toNat) color⟩ := by
              unfold putpixel
              rw [if_pos hin]
            rw [hput]
            apply IH
            unfold Img.wf at hwf ⊢
            simpa using hwf
          · exact IH img rest hwf
      · exact IH img rest hwf

/-- On a well-formed image the bounds guard guarantees `getpixel` answers. -/
theorem getpixel_total (img : Img) (n : ℤ × ℤ) (hwf : img.wf)
    (hin : 0 ≤ n.1 ∧ n.1 < (img.width : ℤ) ∧ 0 ≤ n.2 ∧ n.2 < (img.height : ℤ)) :
    ∃ px, getpixel img n = some px := by
  unfold getpixel
  rw [if_pos hin]
  have hidx : n.2.toNat * img.width + n.1.toNat < img.data.length := by
    unfold Img.wf at hwf
    obtain ⟨hx0, hxw, hy0, hyh⟩ := hin
    have hx : n.1.toNat < img.width := by omega
    have hy : n.2.toNat < img.height := by omega
    calc n.2.toNat * img.width + n.1.toNat
        < n.2.toNat * img.width + img.width := by omega
      _ = (n.2.toNat + 1) * img.width := by ring
      _ ≤ img.height * img.width := Nat.mul_le_mul_right _ (by omega)
      _ = img.width * img.height := Nat.mul_comm _ _
      _ = img.data.length := hwf.symm
  exact ⟨_, List.get?_eq_get hidx⟩

/-- Writing a non-white colour over a popped white pixel strictly decreases
`countWhite`. -/
theorem countWhite_after_write (img : Img) (n : ℤ × ℤ) (color : Pixel)
    (img1 : Img) (hc : color ≠ whitePx)
    (hpx : getpixel img n = some whitePx)
    (hput : putpixel img n color = some img1) :
    countWhite img1 + 1 = countWhite img := by
  have hget := getpixel_some_white img n hpx
  unfold putpixel at hput
  split at hput
  · cases hput
    unfold countWhite
    exact countP_set_decrease _ _ _ hget hc
  · cases hput

/-- The loop's measure argument: with a non-white fill colour, one fuel unit
per iteration and the measure `4 * countWhite + |stack|` strictly decreasing
each iteration, `4 * countWhite img + |stack| < fuel` guarantees an `ok`
outcome. -/
theorem floodLoop_ok (color : Pixel) (hc : color ≠ whitePx) :
    ∀ (fuel : ℕ) (img : Img) (stack : List (ℤ × ℤ)), img.wf →
      4 * countWhite img + stack.length < fuel →
      ∃ img1, floodLoop color fuel img stack = .ok img1 := by
  intro fuel
  induction fuel with
  | zero => intro img stack hwf hm; omega
  | succ fuel IH =>
    intro img stack hwf hm
    match stack with
    | [] => exact ⟨img, rfl⟩
    | n :: rest =>
      rw [floodLoop]
      split
      · rename_i hin
        obtain ⟨px, hpx⟩ := getpixel_total img n hwf hin
        rw [hpx]
        split
        · rename_i habs
          exact Option.noConfusion habs
        · rename_i px2 hpx2
          injection hpx2 with hpx2
          subst hpx2
          split
          · rename_i hwhite
            subst hwhite
            have hput : putpixel img n color =
                some ⟨img.width, img.height,
                  img.data.set (n.2.toNat * img.width + n.1.toNat) color⟩ := by
              unfold putpixel
              rw [if_pos hin]
            rw [hput]
            have hwf1 : (Img.mk img.width img.height
                (img.data.set (n.2.toNat * img.width + n.1.toNat) color)).wf := by
              unfold Img.wf at hwf ⊢
              simpa using hwf
            have hcnt := countWhite_after_write img n color _ hc hpx hput
            apply IH _ _ hwf1
            simp only [List.length_cons] at hm ⊢
            omega
          · apply IH img rest hwf
            simp only [List.length_cons] at hm
            omega
      · apply IH img rest hwf
        simp only [List.length_cons] at hm
        omega

/-- The all-white 1×2 canvas on which a white flood fill cycles forever. -/
def img12 : Img := ⟨1, 2, [whitePx, whitePx]⟩

theorem img12_step_00 (f : ℕ) (rest : List (ℤ × ℤ)) :
    floodLoop whitePx (f + 1) img12 (((0 : ℤ), (0 : ℤ)) :: rest) =
      floodLoop whitePx f img12
        (((0 : ℤ), (1 : ℤ)) :: ((0 : ℤ), (-1 : ℤ)) :: ((1 : ℤ), (0 : ℤ)) ::
          ((-1 : ℤ), (0 : ℤ)) :: rest) := rfl

theorem img12_step_01 (f : ℕ) (rest : List (ℤ × ℤ)) :
    floodLoop whitePx (f + 1) img12 (((0 : ℤ), (1 : ℤ)) :: rest) =
      floodLoop whitePx f img12
        (((0 : ℤ), (2 : ℤ)) :: ((0 : ℤ), (0 : ℤ)) :: ((1 : ℤ), (1 : ℤ)) ::
          ((-1 : ℤ), (1 : ℤ)) :: rest) := rfl

theorem img12_step_skip (f : ℕ) (n : ℤ × ℤ) (rest : List (ℤ × ℤ))
    (h : ¬(0 ≤ n.1 ∧ n.1 < (img12.width : ℤ) ∧ 0 ≤ n.2 ∧ n.2 < (img12.height : ℤ))) :
    floodLoop whitePx (f + 1) img12 (n :: rest) = floodLoop whitePx f img12 rest := by
  rw [floodLoop, if_neg h]

/-- On the 1×2 all-white canvas, a white flood fill whose stack still holds
one of the two canvas points runs forever: the interior points keep
re-seeding each other and the image never changes. -/
theorem floodLoop_img12_nonterm :
    ∀ (fuel : ℕ) (stack : List (ℤ × ℤ)),
      (∃ p ∈ stack, p = ((0 : ℤ), (0 : ℤ)) ∨ p = ((0 : ℤ), (1 : ℤ))) →
      floodLoop whitePx fuel img12 stack = .fuelOut := by
  intro fuel
  induction fuel with
  | zero => intro stack hex; rfl
  | succ fuel IH =>
    intro stack hex
    match stack with
    | [] =>
      obtain ⟨p, hp, hpB⟩ := hex
      simp at hp
    | n :: rest =>
      obtain ⟨p, hp, hpB⟩ := hex
      by_cases hn : n = ((0 : ℤ), (0 : ℤ)) ∨ n = ((0 : ℤ), (1 : ℤ))
      · rcases hn with hn | hn
        · subst hn
          rw [img12_step_00]
          exact IH _ ⟨((0 : ℤ), (1 : ℤ)), by simp, Or.inr rfl⟩
        · subst hn
          rw [img12_step_01]
          exact IH _ ⟨((0 : ℤ), (0 : ℤ)), by simp, Or.inl rfl⟩
      · have hguard : ¬(0 ≤ n.1 ∧ n.1 < (img12.width : ℤ) ∧ 0 ≤ n.2 ∧
            n.2 < (img12.height : ℤ)) := by
          intro hcon
          apply hn
          obtain ⟨hx0, hxw, hy0, hyh⟩ := hcon
          have hw : (img12.width : ℤ) = 1 := rfl
          have hh : (img12.height : ℤ) = 2 := rfl
          rw [hw] at hxw
          rw [hh] at hyh
          have hx : n.1 = 0 := by omega
          have hy : n.2 = 0 ∨ n.2 = 1 := by omega
          rcases hy with hy | hy
          · exact Or.inl (Prod.ext hx hy)
          · exact Or.inr (Prod.ext hx hy)
        rw [img12_step_skip _ _ _ hguard]
        apply IH
        rcases List.mem_cons.mp hp with hpn | hpr
        · exfalso
          apply hn
          rw [← hpn]
          exact hpB
        · exact ⟨p, hpr, hpB⟩

/-- C8 (amended): with a non-white fill colour the loop terminates (the
measure `4 * countWhite + |stack|` drops by one every iteration); with the
white fill colour filled pixels still match the target test, and on the 1×2
all-white canvas the loop never terminates. -/
theorem flood_fill_termination :
    (∀ (img : Img) (xy : ℤ × ℤ) (color : Pixel) (fuel : ℕ), img.wf →
      color ≠ whitePx → 4 * countWhite img + 1 < fuel →
      ∃ img1, flood_fill color fuel img xy = .ok img1) ∧
    (∀ fuel : ℕ, flood_fill whitePx fuel img12 (0, 0) = .fuelOut) := by
  constructor
  · intro img xy color fuel hwf hc hm
    exact floodLoop_ok color hc fuel img [xy] hwf (by simpa using hm)
  · intro fuel
    exact floodLoop_img12_nonterm fuel [(0, 0)] ⟨(0, 0), by simp, Or.inl rfl⟩

/-- C8 witness: a red fill of a 1×1 white canvas completes with fuel 6. -/
theorem flood_fill_termination_witness :
    ∃ img1, flood_fill ⟨255, 0, 0, 255⟩ 6 ⟨1, 1, [whitePx]⟩ (0, 0) = .ok img1 :=
  flood_fill_termination.1 ⟨1, 1, [whitePx]⟩ (0, 0) ⟨255, 0, 0, 255⟩ 6 rfl
    (by decide) (by decide)

/-- C8 counterexample to the claim's parenthetical: on a 1×1 all-white
canvas, flood filling with opaque white from the white seed pixel *does*
terminate (all four pushed neighbours are out of bounds). -/
theorem flood_fill_white_seed_terminates :
    flood_fill whitePx 6 ⟨1, 1, [whitePx]⟩ (0, 0) = .ok ⟨1, 1, [whitePx]⟩ := by
  decide

/-- C10: flood fill touches only in-bounds pixels (it never faults on a
well-formed image), and an out-of-bounds seed leaves the canvas unchanged. -/
theorem flood_fill_safe (img : Img) (xy : ℤ × ℤ) (color : Pixel) (fuel : ℕ)
    (hwf : img.wf) :
    flood_fill color fuel img xy ≠ .fault ∧
    (¬(0 ≤ xy.1 ∧ xy.1 < (img.width : ℤ) ∧ 0 ≤ xy.2 ∧ xy.2 < (img.height : ℤ)) →
      2 ≤ fuel → flood_fill color fuel img xy = .ok img) := by
  constructor
  · exact floodLoop_no_fault color fuel img [xy] hwf
  · intro hout hfuel
    unfold flood_fill
    match fuel, hfuel with
    | fuel + 2, _ =>
      rw [floodLoop, if_neg hout]
      rw [floodLoop]

/-- C10 witness: a concrete 1×1 white canvas with a far-away seed. -/
theorem flood_fill_safe_witness :
    (flood_fill ⟨1, 2, 3, 255⟩ 5 ⟨1, 1, [whitePx]⟩ (7, 9) ≠ .fault ∧
      (¬(0 ≤ (7 : ℤ) ∧ (7 : ℤ) < ((Img.mk 1 1 [whitePx]).width : ℤ) ∧
          0 ≤ (9 : ℤ) ∧ (9 : ℤ) < ((Img.mk 1 1 [whitePx]).height : ℤ)) →
        2 ≤ 5 →
        flood_fill ⟨1, 2, 3, 255⟩ 5 ⟨1, 1, [whitePx]⟩ (7, 9) = .ok ⟨1, 1, [whitePx]⟩)) :=
  flood_fill_safe ⟨1, 1, [whitePx]⟩ (7, 9) ⟨1, 2, 3, 255⟩ 5 rfl

/-!
## Contour tracing (lines 59-126)

`find_first` scans the padded canvas row-major for the first pixel with
nonzero alpha, returning the sentinel `(len(pic), len(pic[0]))` when there is
none.  `get_line` pads the source image with a one-pixel fully transparent
ring, samples the colour at the first foreground pixel, then Moore-walks the
boundary: from the current point it takes the first of the 8 neighbours (in
N, NE, E, SE, S, SW, W, NW order) that is foreground, has a transparent
4-neighbour, and is not in the 8-slot history ring, stopping when the walk
reappends the start point.

Pixel reads in the walk use `alphaZ`, which returns alpha `0` for any
index outside the padded grid.  This matches every read the source actually
performs: the padded border is fully transparent, reads of row/column `-1`
(which Python wraps to the last row/column) land on that transparent border,
and reads past the upper edge are short-circuited by the `padded[i][j][3] != 0`
conjunct exactly when the model also returns `0`.  The one read that is not
guarded — `color = tuple(padded[i][j])` at line 85 — is modelled by the
partial `pixelAt`, whose `none` outcome (`TraceResult.oob`) is Python's
`IndexError`. -/

/-- Alpha channel of `pic[i][j]` for in-range nonnegative indices, else 0. -/
def alphaZ (pic : List (List Pixel)) (p : ℤ × ℤ) : ℤ :=
  if 0 ≤ p.1 ∧ 0 ≤ p.2 then ((pic.getD p.1.toNat []).getD p.2.toNat blank).a
  else 0

/-- Inner loop of `find_first`: first `j < w` with `pic[i][j][3] != 0`. -/
def ff_row (row : List Pixel) (w : ℕ) : Option ℕ :=
  (List.range w).find? (fun j => decide ((row.getD j blank).a ≠ 0))

/-- Outer loop of `find_first`, carrying the current row index. -/
def ff_rows (w : ℕ) : List (List Pixel) → ℕ → Option (ℕ × ℕ)
  | [], _ => none
  | r :: rs, i =>
    match ff_row r w with
    | some j => some (i, j)
    | none => ff_rows w rs (i + 1)

/-- Scan `find_first` (lines 59-65): row-major scan, sentinel
`(len(pic), len(pic[0]))` when every pixel is transparent. -/
def find_first (pic : List (List Pixel)) : ℕ × ℕ :=
  (ff_rows (pic.headD []).length pic 0).getD (pic.length, (pic.headD []).length)

/-- The transparent padding of lines 75-81: one blank pixel on every side. -/
def padImage (img : List (List Pixel)) : List (List Pixel) :=
  List.replicate ((img.headD []).length + 2) blank ::
    (img.map fun r => blank :: (r ++ [blank])) ++
      [List.replicate ((img.headD []).length + 2) blank]

/-- Partial pixel read, modelling numpy's indexing error when out of range
(used for the unguarded colour read `tuple(padded[i][j])`, line 85). -/
def pixelAt (pic : List (List Pixel)) (p : ℕ × ℕ) : Option Pixel :=
  (pic.get? p.1).bind fun r => r.get? p.2

/-- The 8 Moore neighbours in the fixed clockwise source order
N, NE, E, SE, S, SW, W, NW (line 89). -/
def candidates (p : ℤ × ℤ) : List (ℤ × ℤ) :=
  [(p.1 - 1, p.2), (p.1 - 1, p.2 + 1), (p.1, p.2 + 1), (p.1 + 1, p.2 + 1),
   (p.1 + 1, p.2), (p.1 + 1, p.2 - 1), (p.1, p.2 - 1), (p.1 - 1, p.2 - 1)]

/-- The neighbour test of lines 90-91: foreground, at least one transparent
4-neighbour (N, E, S, W order), and not in the history ring. -/
def tracePred (pic : List (List Pixel)) (prevs : List (ℤ × ℤ)) (p : ℤ × ℤ) : Bool :=
  decide (alphaZ pic p ≠ 0) &&
    (decide (alphaZ pic (p.1 - 1, p.2) = 0) ||
     decide (alphaZ pic (p.1, p.2 + 1) = 0) ||
     decide (alphaZ pic (p.1 + 1, p.2) = 0) ||
     decide (alphaZ pic (p.1, p.2 - 1) = 0)) &&
  decide (p ∉ prevs)

/-- Outcome of the boundary walk. -/
inductive LoopRes where
  | ok (line : List (ℤ × ℤ))
  | fuelOut
  | untraceable
deriving DecidableEq, Repr

/-- The `while True` walk of lines 88-103.  Each iteration picks the first
qualifying neighbour (`for ... else` reports the untraceable error), appends
it to the contour and the history ring (evicting the oldest entry), and
stops once the appended point is `first` again. -/
def traceLoop (pic : List (List Pixel)) (first : ℤ × ℤ) :
    ℕ → ℤ × ℤ → List (ℤ × ℤ) → List (ℤ × ℤ) → LoopRes
  | 0, _, _, _ => .fuelOut
  | fuel + 1, cur, prevs, line =>
    match (candidates cur).find? (tracePred pic prevs) with
    | none => .untraceable
    | some p =>
      if p = first then .ok (line ++ [p])
      else traceLoop pic first fuel p (prevs.drop 1 ++ [p]) (line ++ [p])

/-- Outcome of `get_line`. -/
inductive TraceResult where
  | ok (line : List (ℤ × ℤ)) (color : Pixel) (size : ℕ × ℕ)
  | fuelOut
  | untraceable
  | oob
deriving DecidableEq, Repr

/-- Tracing entry point `get_line` (lines 67-126): pad, find the first foreground pixel, sample
its colour, walk the boundary; returns the contour, the colour and the
padded `(width, height)`. -/
def get_line (fuel : ℕ) (original : List (List Pixel)) : TraceResult :=
  match pixelAt (padImage original) (find_first (padImage original)) with
  | none => .oob
  | some color =>
    match traceLoop (padImage original)
        (((find_first (padImage original)).1 : ℤ),
          ((find_first (padImage original)).2 : ℤ)) fuel
        (((find_first (padImage original)).1 : ℤ),
          ((find_first (padImage original)).2 : ℤ))
        (List.replicate 8 (((original.length + 2 : ℕ) : ℤ),
          (((original.headD []).length + 2 : ℕ) : ℤ))) [] with
    | .ok line =>
      .ok line color ((original.headD []).length + 2, original.length + 2)
    | .fuelOut => .fuelOut
    | .untraceable => .untraceable

/-- Every image pixel is fully transparent (`alpha = 0`). -/
def allTransparent (pic : List (List Pixel)) : Prop :=
  ∀ row ∈ pic, ∀ px ∈ row, px.a = 0

instance (pic : List (List Pixel)) : Decidable (allTransparent pic) := by
  unfold allTransparent
  infer_instance

theorem padImage_transparent (img : List (List Pixel))
    (h : allTransparent img) : allTransparent (padImage img) := by
  intro row hrow px hpx
  unfold padImage at hrow
  rcases List.mem_cons.mp hrow with hrow | hrow
  · subst hrow
    rw [List.eq_of_mem_replicate hpx]
    rfl
  · rcases List.mem_append.mp hrow with hrow | hrow
    · obtain ⟨r, hr, hmap⟩ := List.mem_map.mp hrow
      subst hmap
      rcases List.mem_cons.mp hpx with hpx | hpx
      · subst hpx; rfl
      · rcases List.mem_append.mp hpx with hpx | hpx
        · exact h r hr px hpx
        · rw [List.mem_singleton.mp hpx]; rfl
    · rw [List.mem_singleton.mp hrow] at hpx
      rw [List.eq_of_mem_replicate hpx]
      rfl

theorem ff_row_none (row : List Pixel) (w : ℕ)
    (h : ∀ px ∈ row, px.a = 0) : ff_row row w = none := by
  unfold ff_row
  rw [List.find?_eq_none]
  intro j hj
  simp only [decide_eq_true_eq, Decidable.not_not]
  by_cases hlt : j < row.length
  · rw [List.getD_eq_getElem row blank hlt]
    exact h _ (List.getElem_mem hlt)
  · rw [List.getD_eq_default row blank (by omega)]
    rfl

theorem ff_rows_none (w : ℕ) (pic : List (List Pixel))
    (h : ∀ row ∈ pic, ∀ px ∈ row, px.a = 0) :
    ∀ i, ff_rows w pic i = none := by
  induction pic with
  | nil => intro i; rfl
  | cons r rs IH =>
    intro i
    unfold ff_rows
    rw [ff_row_none r w (h r (List.mem_cons_self r rs))]
    exact IH (fun row hrow => h row (List.mem_cons_of_mem r hrow)) (i + 1)

/-- On a fully transparent canvas `find_first` answers the out-of-range
sentinel position. -/
theorem find_first_sentinel (pic : List (List Pixel)) (h : allTransparent pic) :
    find_first pic = (pic.length, (pic.headD []).length) := by
  unfold find_first
  rw [ff_rows_none _ pic h 0]
  rfl

/-- C9: on an image with no foreground pixel at all, `find_first` reports
the sentinel `(height, width)` of the padded canvas, and `get_line`'s
colour read at that position is out of bounds: the run ends in the
out-of-bounds fault, not in the documented untraceable-shape error. -/
theorem get_line_transparent (fuel : ℕ) (original : List (List Pixel))
    (h : allTransparent original) :
    find_first (padImage original) =
      ((padImage original).length, ((padImage original).headD []).length) ∧
    get_line fuel original = .oob := by
  have hpad := padImage_transparent original h
  have hff := find_first_sentinel (padImage original) hpad
  refine ⟨hff, ?_⟩
  unfold get_line
  rw [hff]
  have hnone : pixelAt (padImage original)
      ((padImage original).length, ((padImage original).headD []).length) = none := by
    unfold pixelAt
    rw [List.get?_eq_none.mpr (le_refl _)]
    rfl
  rw [hnone]

/-- C9 witness: the 1×1 fully transparent image. -/
theorem get_line_transparent_witness :
    find_first (padImage [[blank]]) =
      ((padImage [[blank]]).length, ((padImage [[blank]]).headD []).length) ∧
    get_line 5 [[blank]] = .oob :=
  get_line_transparent 5 [[blank]] (by decide)

/-- Every Moore neighbour differs from the centre point. -/
theorem candidates_ne (cur : ℤ × ℤ) : ∀ p ∈ candidates cur, p ≠ cur := by
  intro p hp
  simp only [candidates, List.mem_cons, List.not_mem_nil, or_false] at hp
  rcases hp with rfl | rfl | rfl | rfl | rfl | rfl | rfl | rfl <;>
    (intro h
     rw [Prod.ext_iff] at h
     obtain ⟨h1, h2⟩ := h
     omega)

/-- A successful walk always ends by appending `first`: the returned contour
has `first` as its final point. -/
theorem traceLoop_last (pic : List (List Pixel)) (first : ℤ × ℤ) :
    ∀ (fuel : ℕ) (cur : ℤ × ℤ) (prevs line acc : List (ℤ × ℤ)),
      traceLoop pic first fuel cur prevs acc = .ok line →
      line.getLast? = some first := by
  intro fuel
  induction fuel with
  | zero => intro cur prevs line acc h; exact LoopRes.noConfusion h
  | succ fuel IH =>
    intro cur prevs line acc h
    rw [traceLoop] at h
    split at h
    · exact LoopRes.noConfusion h
    · rename_i p hfind
      split at h
      · rename_i hpf
        cases h
        rw [List.getLast?_concat, hpf]
      · exact IH _ _ _ _ h

/-- The walk only ever appends: a successful result is strictly longer than
the accumulator it started from. -/
theorem traceLoop_length (pic : List (List Pixel)) (first : ℤ × ℤ) :
    ∀ (fuel : ℕ) (cur : ℤ × ℤ) (prevs line acc : List (ℤ × ℤ)),
      traceLoop pic first fuel cur prevs acc = .ok line →
      acc.length < line.length := by
  intro fuel
  induction fuel with
  | zero => intro cur prevs line acc h; exact LoopRes.noConfusion h
  | succ fuel IH =>
    intro cur prevs line acc h
    rw [traceLoop] at h
    split at h
    · exact LoopRes.noConfusion h
    · rename_i p hfind
      split at h
      · cases h
        simp
      · have := IH _ _ _ _ h
        simp only [List.length_append, List.length_cons, List.length_nil] at this
        omega

/-- Each appended point is a fresh Moore neighbour of the previous one, so
the accumulated contour never repeats a point twice in a row. -/
theorem traceLoop_chain (pic : List (List Pixel)) (first : ℤ × ℤ) :
    ∀ (fuel : ℕ) (cur : ℤ × ℤ) (prevs line acc : List (ℤ × ℤ)),
      traceLoop pic first fuel cur prevs acc = .ok line →
      List.Chain' (fun x y => x ≠ y) acc →
      (acc.getLast? = none ∨ acc.getLast? = some cur) →
      List.Chain' (fun x y => x ≠ y) line := by
  intro fuel
  induction fuel with
  | zero => intro cur prevs line acc h _ _; exact LoopRes.noConfusion h
  | succ fuel IH =>
    intro cur prevs line acc h hchain hlast
    rw [traceLoop] at h
    split at h
    · exact LoopRes.noConfusion h
    · rename_i p hfind
      have hpmem : p ∈ candidates cur := List.mem_of_find?_eq_some hfind
      have hpne : p ≠ cur := candidates_ne cur p hpmem
      have hchain1 : List.Chain' (fun x y => x ≠ y) (acc ++ [p]) := by
        rw [List.chain'_append]
        refine ⟨hchain, List.chain'_singleton p, ?_⟩
        intro x hx y hy
        rcases hlast with hnone | hsome
        · rw [hnone] at hx; exact Option.noConfusion hx
        · rw [hsome] at hx
          cases hx
          simp only [List.head?_cons, Option.mem_def, Option.some.injEq] at hy
          subst hy
          exact fun hcon => hpne hcon.symm
      split at h
      · cases h
        exact hchain1
      · exact IH _ _ _ _ h hchain1 (Or.inr (List.getLast?_concat acc))

/-- C3 (amended): whenever `get_line` succeeds, the walk has stopped by
returning to the start pixel, which is appended before the stop test: the
returned contour's *last* element is exactly the first foreground pixel of
the padded image (and the start is not duplicated at the beginning). -/
theorem get_line_last_is_start (fuel : ℕ) (img : List (List Pixel))
    (line : List (ℤ × ℤ)) (c : Pixel) (sz : ℕ × ℕ)
    (h : get_line fuel img = .ok line c sz) :
    line.getLast? =
      some (((find_first (padImage img)).1 : ℤ),
        ((find_first (padImage img)).2 : ℤ)) := by
  unfold get_line at h
  split at h
  · exact TraceResult.noConfusion h
  · split at h
    · rename_i line0 heq
      cases h
      exact traceLoop_last _ _ _ _ _ _ _ heq
    · exact TraceResult.noConfusion h
    · exact TraceResult.noConfusion h

/-- C3 counterexample input: the 1×2 two-pixel image.  `get_line` succeeds
on it, the first foreground pixel of the padded canvas is `(1, 1)`, and the
returned contour `[(1, 2), (1, 1)]` *does* carry the start pixel as its
last element — the claim that the final `start` is excluded is false. -/
theorem get_line_domino_last :
    get_line 9 [[Pixel.mk 9 9 9 255, Pixel.mk 9 9 9 255]] =
      .ok [((1 : ℤ), (2 : ℤ)), ((1 : ℤ), (1 : ℤ))] (Pixel.mk 9 9 9 255) (4, 3) ∧
    find_first (padImage [[Pixel.mk 9 9 9 255, Pixel.mk 9 9 9 255]]) = (1, 1) ∧
    ([((1 : ℤ), (2 : ℤ)), ((1 : ℤ), (1 : ℤ))]).getLast? = some ((1 : ℤ), (1 : ℤ)) := by
  refine ⟨by decide, by decide, rfl⟩

/-- C3 (amended) witness: the theorem applied to the 1×2 image. -/
theorem get_line_last_is_start_witness :
    ([((1 : ℤ), (2 : ℤ)), ((1 : ℤ), (1 : ℤ))]).getLast? =
      some (((find_first (padImage [[Pixel.mk 9 9 9 255, Pixel.mk 9 9 9 255]])).1 : ℤ),
        ((find_first (padImage [[Pixel.mk 9 9 9 255, Pixel.mk 9 9 9 255]])).2 : ℤ)) :=
  get_line_last_is_start 9 [[Pixel.mk 9 9 9 255, Pixel.mk 9 9 9 255]]
    [((1 : ℤ), (2 : ℤ)), ((1 : ℤ), (1 : ℤ))] (Pixel.mk 9 9 9 255) (4, 3) (by decide)

/-- C4 (amended): a successfully traced contour never repeats a point twice
in a row, and has at least 2 points (the first appended point is a Moore
neighbour of `start`, hence distinct from it, so the walk cannot stop after
a single append). -/
theorem get_line_contour_invariant (fuel : ℕ) (img : List (List Pixel))
    (line : List (ℤ × ℤ)) (c : Pixel) (sz : ℕ × ℕ)
    (h : get_line fuel img = .ok line c sz) :
    List.Chain' (fun x y => x ≠ y) line ∧ 2 ≤ line.length := by
  unfold get_line at h
  split at h
  · exact TraceResult.noConfusion h
  · split at h
    · rename_i line0 heq
      cases h
      constructor
      · exact traceLoop_chain _ _ _ _ _ _ _ heq List.chain'_nil (Or.inl rfl)
      · match fuel, heq with
        | fuel + 1, heq =>
          rw [traceLoop] at heq
          split at heq
          · exact LoopRes.noConfusion heq
          · rename_i p hfind
            have hpne : p ≠ _ :=
              candidates_ne _ p (List.mem_of_find?_eq_some hfind)
            rw [if_neg hpne] at heq
            have := traceLoop_length _ _ _ _ _ _ _ heq
            simp only [List.nil_append, List.length_cons, List.length_nil] at this
            omega
    · exact TraceResult.noConfusion h
    · exact TraceResult.noConfusion h

/-- C4 counterexample input: the 1×2 two-pixel image traces successfully to
the 2-point contour `[(1, 2), (1, 1)]`, so "length ≥ 3 for any successfully
traced shape" is false (consecutive points are still pairwise distinct). -/
theorem get_line_domino_short :
    get_line 9 [[Pixel.mk 9 9 9 255, Pixel.mk 9 9 9 255]] =
      .ok [((1 : ℤ), (2 : ℤ)), ((1 : ℤ), (1 : ℤ))] (Pixel.mk 9 9 9 255) (4, 3) ∧
    ¬(3 ≤ ([((1 : ℤ), (2 : ℤ)), ((1 : ℤ), (1 : ℤ))]).length) := by
  refine ⟨by decide, by decide⟩

/-- C4 (amended) witness: the theorem applied to the 1×2 image. -/
theorem get_line_contour_invariant_witness :
    List.Chain' (fun x y => x ≠ y) [((1 : ℤ), (2 : ℤ)), ((1 : ℤ), (1 : ℤ))] ∧
    2 ≤ ([((1 : ℤ), (2 : ℤ)), ((1 : ℤ), (1 : ℤ))]).length :=
  get_line_contour_invariant 9 [[Pixel.mk 9 9 9 255, Pixel.mk 9 9 9 255]]
    [((1 : ℤ), (2 : ℤ)), ((1 : ℤ), (1 : ℤ))] (Pixel.mk 9 9 9 255) (4, 3) (by decide)

/-!
## Frame generation (lines 258-296)

`main` sizes the canvas to the componentwise maximum of the two padded
source sizes, renders one frame per `t` in `np.linspace(0.0, 1.0, nframes)`
(white canvas, polyline in the interpolated colour, flood fill from 5 pixels
below the first interpolated point) and, for GIF output, saves the frames
with `duration = duration * 1000.0 / nframes` and the loop count as given.

Which pixels `ImageDraw.line` covers for a segment is PIL's business, not
this repository's; the embedding abstracts it as a coverage function `cov`
from a segment to the pixels it paints (PIL clips to the canvas, hence
`putClip`).  Every property proved below holds for every such function. -/

/-- Model of `np.linspace(a, b, n)` with the default inclusive endpoint: `n` samples
`a + k * (b - a) / (n - 1)`; a single sample is just `[a]`. -/
def np_linspace (a b : ℚ) (n : ℕ) : List ℚ :=
  if n = 1 then [a]
  else (List.range n).map fun (k : ℕ) => a + (b - a) / ((n : ℚ) - 1) * (k : ℚ)

/-- The freshly allocated canvas of line 281: all opaque white. -/
def whiteCanvas (w h : ℕ) : Img := ⟨w, h, List.replicate (w * h) whitePx⟩

/-- A clipped pixel write: PIL's draw primitives silently ignore pixels
outside the canvas. -/
def putClip (img : Img) (p : ℤ × ℤ) (c : Pixel) : Img :=
  match putpixel img p c with
  | some img1 => img1
  | none => img

/-- Paint a list of pixels in colour `c`. -/
def drawPts (img : Img) (ps : List (ℤ × ℤ)) (c : Pixel) : Img :=
  ps.foldl (fun im p => putClip im p c) img

/-- Draw every segment the polyline loop produces, painting the pixels the
coverage function `cov` assigns to each segment. -/
def drawSegs (cov : (ℤ × ℤ) → (ℤ × ℤ) → List (ℤ × ℤ)) (img : Img)
    (segs : List ((ℤ × ℤ) × (ℤ × ℤ))) (c : Pixel) : Img :=
  segs.foldl (fun im s => drawPts im (cov s.1 s.2) c) img

/-- One frame (lines 281-292): blank white canvas, the polyline loop's
segments, then `flood_fill(img, (pts[0][0], pts[0][1] + 5), color)`.  The
flood fill runs on fuel exceeding its measure, so it always completes; the
(unreachable) fallback returns the outlined canvas. -/
def renderFrame (cov : (ℤ × ℤ) → (ℤ × ℤ) → List (ℤ × ℤ)) (w h : ℕ)
    (pts : List Pt) (c : Pixel) : Img :=
  match floodLoop c
      (4 * countWhite (drawSegs cov (whiteCanvas w h) (drawnSegments pts) c) + 2)
      (drawSegs cov (whiteCanvas w h) (drawnSegments pts) c)
      [((pts.headD (0, 0)).1, (pts.headD (0, 0)).2 + 5)] with
  | .ok img2 => img2
  | _ => drawSegs cov (whiteCanvas w h) (drawnSegments pts) c

/-- The frame loop of lines 275-292: one frame per linspace sample. -/
def morphFrames (cov : (ℤ × ℤ) → (ℤ × ℤ) → List (ℤ × ℤ))
    (a b : List Pt) (c0 c1 : Pixel) (w h : ℕ) (n : ℕ) : List Img :=
  (np_linspace 0 1 n).map fun t =>
    renderFrame cov w h (interpolatePoints a b t) (interpColor c0 c1 t)

/-- The assembled animation handed to the encoder. -/
structure Animation where
  frames : List Img
  interval : ℚ
  loop : ℤ

/-- The GIF save call of lines 295-296: per-frame interval
`duration * 1000.0 / nframes`, loop count passed through. -/
def assembleGif (frames : List Img) (duration : ℚ) (n : ℕ) (loop : ℤ) :
    Animation :=
  ⟨frames, duration * 1000 / (n : ℚ), loop⟩

/-- Every pixel of the image is fully opaque. -/
def alpha255 (img : Img) : Prop := ∀ p ∈ img.data, p.a = 255

theorem putpixel_alpha255 (img : Img) (p : ℤ × ℤ) (c : Pixel) (img1 : Img)
    (hc : c.a = 255) (h255 : alpha255 img)
    (h : putpixel img p c = some img1) : alpha255 img1 := by
  unfold putpixel at h
  split at h
  · cases h
    intro q hq
    rcases List.mem_or_eq_of_mem_set hq with hq | hq
    · exact h255 q hq
    · rw [hq]; exact hc
  · cases h

theorem putClip_alpha255 (img : Img) (p : ℤ × ℤ) (c : Pixel)
    (hc : c.a = 255) (h255 : alpha255 img) : alpha255 (putClip img p c) := by
  unfold putClip
  split
  · rename_i img1 h
    exact putpixel_alpha255 img p c img1 hc h255 h
  · exact h255

theorem putClip_dims (img : Img) (p : ℤ × ℤ) (c : Pixel) :
    (putClip img p c).width = img.width ∧ (putClip img p c).height = img.height := by
  unfold putClip
  split
  · rename_i img1 h
    exact putpixel_dims img p c img1 h
  · exact ⟨rfl, rfl⟩

theorem drawPts_alpha255 (ps : List (ℤ × ℤ)) (c : Pixel) (hc : c.a = 255) :
    ∀ img, alpha255 img → alpha255 (drawPts img ps c) := by
  induction ps with
  | nil => intro img h; exact h
  | cons p ps IH =>
    intro img h
    exact IH _ (putClip_alpha255 img p c hc h)

theorem drawPts_dims (ps : List (ℤ × ℤ)) (c : Pixel) :
    ∀ img, (drawPts img ps c).width = img.width ∧
      (drawPts img ps c).height = img.height := by
  induction ps with
  | nil => intro img; exact ⟨rfl, rfl⟩
  | cons p ps IH =>
    intro img
    obtain ⟨hw, hh⟩ := IH (putClip img p c)
    obtain ⟨hw2, hh2⟩ := putClip_dims img p c
    exact ⟨hw.trans hw2, hh.trans hh2⟩

theorem drawSegs_alpha255 (cov : (ℤ × ℤ) → (ℤ × ℤ) → List (ℤ × ℤ))
    (segs : List ((ℤ × ℤ) × (ℤ × ℤ))) (c : Pixel) (hc : c.a = 255) :
    ∀ img, alpha255 img → alpha255 (drawSegs cov img segs c) := by
  induction segs with
  | nil => intro img h; exact h
  | cons s segs IH =>
    intro img h
    exact IH _ (drawPts_alpha255 _ c hc img h)

theorem drawSegs_dims (cov : (ℤ × ℤ) → (ℤ × ℤ) → List (ℤ × ℤ))
    (segs : List ((ℤ × ℤ) × (ℤ × ℤ))) (c : Pixel) :
    ∀ img, (drawSegs cov img segs c).width = img.width ∧
      (drawSegs cov img segs c).height = img.height := by
  induction segs with
  | nil => intro img; exact ⟨rfl, rfl⟩
  | cons s segs IH =>
    intro img
    obtain ⟨hw, hh⟩ := IH (drawPts img (cov s.1 s.2) c)
    obtain ⟨hw2, hh2⟩ := drawPts_dims (cov s.1 s.2) c img
    exact ⟨hw.trans hw2, hh.trans hh2⟩

theorem floodLoop_alpha255 (color : Pixel) (hc : color.a = 255) :
    ∀ (fuel : ℕ) (img : Img) (stack : List (ℤ × ℤ)) (img1 : Img),
      alpha255 img → floodLoop color fuel img stack = .ok img1 →
      alpha255 img1 := by
  intro fuel
  induction fuel with
  | zero => intro img stack img1 h255 h; exact FloodRes.noConfusion h
  | succ fuel IH =>
    intro img stack img1 h255 h
    match stack with
    | [] =>
      rw [floodLoop] at h
      cases h
      exact h255
    | n :: rest =>
      rw [floodLoop] at h
      split at h
      · split at h
        · exact FloodRes.noConfusion h
        · split at h
          · split at h
            · exact FloodRes.noConfusion h
            · rename_i imgW hput
              exact IH _ _ _ (putpixel_alpha255 img n color imgW hc h255 hput) h
          · exact IH _ _ _ h255 h
      · exact IH _ _ _ h255 h

theorem floodLoop_dims (color : Pixel) :
    ∀ (fuel : ℕ) (img : Img) (stack : List (ℤ × ℤ)) (img1 : Img),
      floodLoop color fuel img stack = .ok img1 →
      img1.width = img.width ∧ img1.height = img.height := by
  intro fuel
  induction fuel with
  | zero => intro img stack img1 h; exact FloodRes.noConfusion h
  | succ fuel IH =>
    intro img stack img1 h
    match stack with
    | [] =>
      rw [floodLoop] at h
      cases h
      exact ⟨rfl, rfl⟩
    | n :: rest =>
      rw [floodLoop] at h
      split at h
      · split at h
        · exact FloodRes.noConfusion h
        · split at h
          · split at h
            · exact FloodRes.noConfusion h
            · rename_i imgW hput
              obtain ⟨hw, hh⟩ := IH _ _ _ h
              obtain ⟨hw2, hh2⟩ := putpixel_dims img n color imgW hput
              exact ⟨hw.trans hw2, hh.trans hh2⟩
          · exact IH _ _ _ h
      · exact IH _ _ _ h

theorem whiteCanvas_alpha255 (w h : ℕ) : alpha255 (whiteCanvas w h) := by
  intro p hp
  rw [List.eq_of_mem_replicate hp]
  rfl

theorem renderFrame_alpha255 (cov : (ℤ × ℤ) → (ℤ × ℤ) → List (ℤ × ℤ))
    (w h : ℕ) (pts : List Pt) (c : Pixel) (hc : c.a = 255) :
    alpha255 (renderFrame cov w h pts c) := by
  have hbase : alpha255 (drawSegs cov (whiteCanvas w h) (drawnSegments pts) c) :=
    drawSegs_alpha255 cov _ c hc _ (whiteCanvas_alpha255 w h)
  unfold renderFrame
  split
  · rename_i img2 hflood
    exact floodLoop_alpha255 c hc _ _ _ img2 hbase hflood
  · exact hbase

theorem renderFrame_dims (cov : (ℤ × ℤ) → (ℤ × ℤ) → List (ℤ × ℤ))
    (w h : ℕ) (pts : List Pt) (c : Pixel) :
    (renderFrame cov w h pts c).width = w ∧
    (renderFrame cov w h pts c).height = h := by
  have hbase := drawSegs_dims cov (drawnSegments pts) c (whiteCanvas w h)
  unfold renderFrame
  split
  · rename_i img2 hflood
    obtain ⟨hw, hh⟩ := floodLoop_dims c _ _ _ img2 hflood
    exact ⟨hw.trans hbase.1, hh.trans hbase.2⟩
  · exact hbase

/-- The frame loop renders one frame per linspace sample, so `nframes`
samples give `nframes` frames. -/
theorem np_linspace_length (a b : ℚ) (n : ℕ) : (np_linspace a b n).length = n := by
  unfold np_linspace
  split
  · rename_i h1; rw [h1]; rfl
  · rw [List.length_map, List.length_range]

/-- C7 (amended): every successful run (`nframes = n ≥ 1`) produces exactly
`n` frames; for `n ≥ 2` the `t` values are `k / (n - 1)` for `k < n` —
evenly spaced over `[0, 1]` with both endpoints included — while for
`n = 1` the single sample is `t = 0`; each frame is a fully opaque canvas
of the maximum padded width and height; and the GIF metadata carries the
per-frame interval `duration * 1000 / nframes` and the loop count
unchanged. -/
theorem morph_frames_spec (cov : (ℤ × ℤ) → (ℤ × ℤ) → List (ℤ × ℤ))
    (a b : List Pt) (c0 c1 : Pixel) (w1 h1 w2 h2 : ℕ) (d : ℚ) (l : ℤ)
    (n : ℕ) (hn : 1 ≤ n) :
    (morphFrames cov a b c0 c1 (max w1 w2) (max h1 h2) n).length = n ∧
    (2 ≤ n →
      np_linspace 0 1 n =
        (List.range n).map (fun (k : ℕ) => (k : ℚ) / ((n : ℚ) - 1)) ∧
      (0 : ℚ) ∈ np_linspace 0 1 n ∧
      (1 : ℚ) ∈ np_linspace 0 1 n) ∧
    (n = 1 → np_linspace 0 1 n = [0]) ∧
    (∀ f ∈ morphFrames cov a b c0 c1 (max w1 w2) (max h1 h2) n,
      f.width = max w1 w2 ∧ f.height = max h1 h2 ∧ ∀ p ∈ f.data, p.a = 255) ∧
    (assembleGif (morphFrames cov a b c0 c1 (max w1 w2) (max h1 h2) n)
      d n l).interval = d * 1000 / (n : ℚ) ∧
    (assembleGif (morphFrames cov a b c0 c1 (max w1 w2) (max h1 h2) n)
      d n l).loop = l := by
  refine ⟨?_, ?_, ?_, ?_, rfl, rfl⟩
  · unfold morphFrames
    rw [List.length_map, np_linspace_length]
  · intro hn2
    have hne1 : n ≠ 1 := by omega
    have hform : np_linspace 0 1 n =
        (List.range n).map (fun (k : ℕ) => (k : ℚ) / ((n : ℚ) - 1)) := by
      unfold np_linspace
      rw [if_neg hne1]
      apply List.map_congr_left
      intro k _
      ring
    refine ⟨hform, ?_, ?_⟩
    · rw [hform]
      exact List.mem_map.mpr ⟨0, List.mem_range.mpr (by omega), by simp⟩
    · rw [hform]
      refine List.mem_map.mpr ⟨n - 1, List.mem_range.mpr (by omega), ?_⟩
      have hcast : ((n - 1 : ℕ) : ℚ) = (n : ℚ) - 1 := by
        push_cast [Nat.cast_sub (by omega : 1 ≤ n)]
        ring
      rw [hcast]
      apply div_self
      have : (2 : ℚ) ≤ (n : ℚ) := by exact_mod_cast hn2
      linarith
  · intro h1
    subst h1
    rfl
  · intro f hf
    unfold morphFrames at hf
    obtain ⟨t, ht, hft⟩ := List.mem_map.mp hf
    subst hft
    obtain ⟨hw, hh⟩ := renderFrame_dims cov (max w1 w2) (max h1 h2)
      (interpolatePoints a b t) (interpColor c0 c1 t)
    exact ⟨hw, hh, renderFrame_alpha255 cov _ _ _ _ rfl⟩

/-- C7 counterexample to the claim as stated: with `nframes = 1` (a legal
positive frame count) the sampled `t` values are just `[0]` — the endpoint
`t = 1` is not included, so the samples are not spread over all of `[0, 1]`
with both endpoints. -/
theorem np_linspace_one_sample :
    np_linspace 0 1 1 = [0] ∧ (1 : ℚ) ∉ np_linspace 0 1 1 := by
  constructor
  · rfl
  · rw [show np_linspace 0 1 1 = [0] from rfl]
    simp

/-- C7 (amended) witness at `nframes = 2` with trivial coverage. -/
theorem morph_frames_spec_witness :
    (morphFrames (fun _ _ => []) [((0 : ℤ), (0 : ℤ))] [((1 : ℤ), (1 : ℤ))]
      blank whitePx (max 1 2) (max 1 2) 2).length = 2 ∧
    (2 ≤ 2 →
      np_linspace 0 1 2 =
        (List.range 2).map (fun (k : ℕ) => (k : ℚ) / (((2 : ℕ) : ℚ) - 1)) ∧
      (0 : ℚ) ∈ np_linspace 0 1 2 ∧
      (1 : ℚ) ∈ np_linspace 0 1 2) ∧
    ((2 : ℕ) = 1 → np_linspace 0 1 2 = [0]) ∧
    (∀ f ∈ morphFrames (fun _ _ => []) [((0 : ℤ), (0 : ℤ))] [((1 : ℤ), (1 : ℤ))]
        blank whitePx (max 1 2) (max 1 2) 2,
      f.width = max 1 2 ∧ f.height = max 1 2 ∧ ∀ p ∈ f.data, p.a = 255) ∧
    (assembleGif (morphFrames (fun _ _ => []) [((0 : ℤ), (0 : ℤ))] [((1 : ℤ), (1 : ℤ))]
      blank whitePx (max 1 2) (max 1 2) 2) 7 2 0).interval = 7 * 1000 / ((2 : ℕ) : ℚ) ∧
    (assembleGif (morphFrames (fun _ _ => []) [((0 : ℤ), (0 : ℤ))] [((1 : ℤ), (1 : ℤ))]
      blank whitePx (max 1 2) (max 1 2) 2) 7 2 0).loop = 0 :=
  morph_frames_spec (fun _ _ => []) [((0 : ℤ), (0 : ℤ))] [((1 : ℤ), (1 : ℤ))]
    blank whitePx 1 1 2 2 7 0 2 (by omega)

end Morpher
